import Mathlib

/-!
Verification of the pipeline in `src/script.py` of the `etllm_pagbank`
repository, against its natural-language specification.

The file shallowly embeds the pure core of the script:

* `transform_messages_of_llm` — the three `re.findall` extractions
  (buyer / bank / amount patterns), modelled character-by-character with
  Python's leftmost, non-overlapping scan and greedy backtracking.
* `collect_informations` — positional alignment of the three lists with
  the sentinel `"Não encontrado"`.
* `convert_to_dataframe` — pandas table construction, modelled as
  succeeding exactly when the three columns have equal length.
* `get_messages` — the per-message mailbox loop (the network fetch, the
  HTML-to-text conversion and the LLM call are I/O and are abstracted to
  the list of matching messages and a per-message `process` function;
  the loop structure, including the `return` inside the loop, is
  modelled faithfully).

Machine characters are Lean `Char` (Unicode scalar values), matching
Python `str`.  Python's `\s` (with Unicode semantics, the default for
`str` patterns) and `str.strip()` use the Unicode whitespace set, which
is spelled out in `pySpace`.  Python's `\d` also accepts non-ASCII
decimal digits; the embedding uses ASCII `0`-`9`, which is exact on all
inputs considered by the specification (the patterns only ever consume
Brazilian-format currency values written with ASCII digits).
-/

namespace PagbankEtl

/-- The Unicode whitespace characters recognized both by Python's `\s`
in `str` regex patterns and by `str.strip()` with no arguments. -/
def pySpaceChars : List Char :=
  [' ', '\t', '\n', '\x0b', '\x0c', '\r', '\x1c', '\x1d', '\x1e', '\x1f',
   '\x85', '\xa0', '\u1680', '\u2000', '\u2001', '\u2002', '\u2003',
   '\u2004', '\u2005', '\u2006', '\u2007', '\u2008', '\u2009', '\u200a',
   '\u2028', '\u2029', '\u202f', '\u205f', '\u3000']

/-- Unicode whitespace, as used both by Python's `\s` in `str` regex
patterns and by `str.strip()` with no arguments. -/
def pySpace (c : Char) : Bool := pySpaceChars.contains c

/-- ASCII decimal digit, the only digits exercised by the patterns
(`\d` in the source). -/
def isD (c : Char) : Bool := '0' ≤ c && c ≤ '9'

/-- The character class `[A-ZÀ-Ú]` of the buyer pattern in
`transform_messages_of_llm` (line 122 of `src/script.py`).  Note that
the codepoint range `À`-`Ú` (U+00C0-U+00DA) contains the multiplication
sign `×` (U+00D7), which is not a letter. -/
def isUpperRange (c : Char) : Bool :=
  ('A' ≤ c && c ≤ 'Z') || ('À' ≤ c && c ≤ 'Ú')

/-- The character class `[a-zà-ú]` of the buyer pattern. -/
def isLowerRange (c : Char) : Bool :=
  ('a' ≤ c && c ≤ 'z') || ('à' ≤ c && c ≤ 'ú')

/-- A genuine uppercase letter as the specification words it: an ASCII
uppercase letter or an accented uppercase letter.  Unlike
`isUpperRange` this excludes the multiplication sign `×`. -/
def isUpperLetter (c : Char) : Bool :=
  ('A' ≤ c && c ≤ 'Z') || (('À' ≤ c && c ≤ 'Ú') && !(c == '×'))

/-- Alternation of literal labels `(?:L1|L2)`: try each label in order
at the current position; on success return the text after the label. -/
def firstLabel : List (List Char) → List Char → Option (List Char)
  | [], _ => none
  | l :: ls, s => if l.isPrefixOf s then some (s.drop l.length) else firstLabel ls s

/-- Greedy `\s*` followed by the continuation `k`, with full
backtracking: the longest whitespace run is tried first, then shorter
runs, exactly as a backtracking regex engine resolves `\s*k`. -/
def starSpaceThen {α : Type} (k : List Char → Option α) : List Char → Option α
  | [] => k []
  | c :: cs =>
    if pySpace c then
      match starSpaceThen k cs with
      | some r => some r
      | none => k (c :: cs)
    else k (c :: cs)

/-- The scan of Python `re.findall`: at each position try the pattern;
on a match emit group 1 and continue right after the match, otherwise
advance one character.  All three patterns start with a non-empty
literal label, so every match consumes at least one character and
`fuel = length + 1` never runs out. -/
def findallAux (m : List Char → Option (List Char × List Char)) :
    Nat → List Char → List (List Char)
  | 0, _ => []
  | _ + 1, [] => []
  | fuel + 1, c :: cs =>
    match m (c :: cs) with
    | some (g, r) => g :: findallAux m fuel r
    | none => findallAux m fuel cs

/-- `re.findall(pattern, s)` for a single-group pattern whose
position-wise matcher is `m`. -/
def pyFindall (m : List Char → Option (List Char × List Char)) (s : String) :
    List String :=
  (findallAux m (s.toList.length + 1) s.toList).map String.mk

/-- One "word" of the buyer pattern: `[A-ZÀ-Ú][a-zà-ú]+`, with the
greedy maximal run of lowercase-class characters.  Returns the consumed
word and the remainder. -/
def matchWord : List Char → Option (List Char × List Char)
  | [] => none
  | c :: cs =>
    if isUpperRange c then
      if cs.takeWhile isLowerRange = [] then none
      else some (c :: cs.takeWhile isLowerRange, cs.dropWhile isLowerRange)
    else none

/-- The greedy repetition `(?:\s+[A-ZÀ-Ú][a-zà-ú]+)*`: as many further
`whitespace-run ++ word` groups as possible.  Backtracking cannot add
matches here because the three character classes are pairwise disjoint
and nothing follows the group in the pattern, so the maximal-munch
result is the regex result.  Each iteration consumes at least three
characters, so `fuel = length` of the input suffices. -/
def moreWords : Nat → List Char → List Char × List Char
  | 0, s => ([], s)
  | fuel + 1, s =>
    if s.takeWhile pySpace = [] then ([], s)
    else
      match matchWord (s.dropWhile pySpace) with
      | some (w, r) =>
        match moreWords fuel r with
        | (ext, rest) => (s.takeWhile pySpace ++ w ++ ext, rest)
      | none => ([], s)

/-- The capture group of the buyer pattern:
`([A-ZÀ-Ú][a-zà-ú]+(?:\s+[A-ZÀ-Ú][a-zà-ú]+)+)` — a word followed by at
least one further whitespace-separated word. -/
def buyerGroup (s : List Char) : Option (List Char × List Char) :=
  match matchWord s with
  | some (w, r) =>
    match moreWords r.length r with
    | (ext, rest) => if ext = [] then none else some (w ++ ext, rest)
  | none => none

/-- Labels of the buyer pattern, in the order of the alternation
`(?:Informação do pagador:|Pagador:)`. -/
def buyerLabels : List (List Char) :=
  [("Informação do pagador:").toList, ("Pagador:").toList]

/-- The buyer pattern of `transform_messages_of_llm` tried at one
position:
`(?:Informação do pagador:|Pagador:)\s*([A-ZÀ-Ú][a-zà-ú]+(?:\s+[A-ZÀ-Ú][a-zà-ú]+)+)`. -/
def buyerMatchAt (s : List Char) : Option (List Char × List Char) :=
  match firstLabel buyerLabels s with
  | some t => starSpaceThen buyerGroup t
  | none => none

/-- The capture group `([^\n]+)` of the bank pattern: at least one
character other than a newline, greedily extended to the next newline
or the end of the text. -/
def bankCap : List Char → Option (List Char × List Char)
  | [] => none
  | c :: cs =>
    if c = '\n' then none
    else some (c :: cs.takeWhile (fun d => d != '\n'),
               cs.dropWhile (fun d => d != '\n'))

/-- Labels of the bank pattern, in the order of the alternation
`(?:Banco Pagador:|Informação sobre o banco:)`. -/
def bankLabels : List (List Char) :=
  [("Banco Pagador:").toList, ("Informação sobre o banco:").toList]

/-- The bank pattern of `transform_messages_of_llm` tried at one
position: `(?:Banco Pagador:|Informação sobre o banco:)\s*([^\n]+)`.
The `\s*` backtracks: if only whitespace follows the label, the engine
gives characters back so that `[^\n]+` can still match a non-newline
whitespace character. -/
def bankMatchAt (s : List Char) : Option (List Char × List Char) :=
  match firstLabel bankLabels s with
  | some t => starSpaceThen bankCap t
  | none => none

/-- The literal tail `,\d{2}` of the amount capture group. -/
def matchDD : List Char → Option (List Char × List Char)
  | a :: b :: c :: rest =>
    if a = ',' ∧ isD b = true ∧ isD c = true then some ([a, b, c], rest) else none
  | _ => none

/-- The greedy repetition `(?:\.\d{3})*` followed by `,\d{2}`, with
backtracking over the number of iterations (more iterations are
preferred; on failure the engine stops the repetition at the current
position and tries `,\d{2}` there).  Each iteration consumes four
characters, so passing the length of the input as fuel suffices. -/
def unitsThen : Nat → List Char → Option (List Char × List Char)
  | fuel + 1, a :: b :: c :: d :: rest =>
    if a = '.' ∧ isD b = true ∧ isD c = true ∧ isD d = true then
      match unitsThen fuel rest with
      | some (u, r) => some (a :: b :: c :: d :: u, r)
      | none => matchDD (a :: b :: c :: d :: rest)
    else matchDD (a :: b :: c :: d :: rest)
  | _, s => matchDD s

/-- Exactly `k` digits from the front of the input. -/
def takeDExact : Nat → List Char → Option (List Char × List Char)
  | 0, s => some ([], s)
  | _ + 1, [] => none
  | k + 1, c :: cs =>
    if isD c then
      match takeDExact k cs with
      | some (d, r) => some (c :: d, r)
      | none => none
    else none

/-- One alternative of `\d{1,3}`: exactly `k` leading digits, then the
rest of the capture group. -/
def dTry (k : Nat) (s : List Char) : Option (List Char × List Char) :=
  match takeDExact k s with
  | some (d, r) =>
    match unitsThen r.length r with
    | some (u, rr) => some (d ++ u, rr)
    | none => none
  | none => none

/-- The amount capture group `(\d{1,3}(?:\.\d{3})*,\d{2})`: greedy
`\d{1,3}` tries three digits first, then two, then one. -/
def d13 (s : List Char) : Option (List Char × List Char) :=
  match dTry 3 s with
  | some res => some res
  | none =>
    match dTry 2 s with
    | some res => some res
    | none => dTry 1 s

/-- The optional literal space of `R\$ ?`: greedily consume one space if
present, falling back to not consuming it. -/
def optSpaceThen (k : List Char → Option (List Char × List Char)) :
    List Char → Option (List Char × List Char)
  | [] => k []
  | c :: cs =>
    if c = ' ' then
      match k cs with
      | some r => some r
      | none => k (c :: cs)
    else k (c :: cs)

/-- The literal `R\$ ?` followed by the amount capture group. -/
def amountR : List Char → Option (List Char × List Char)
  | 'R' :: '$' :: rest => optSpaceThen d13 rest
  | _ => none

/-- The optional group `(?:\n\s*)?` followed by `R\$ ?(…)`: if the
current character is a newline the engine greedily enters the group
(consuming the newline and then `\s*` with backtracking) and falls back
to matching the group empty. -/
def amountCore (s : List Char) : Option (List Char × List Char) :=
  match s with
  | c :: cs =>
    if c = '\n' then
      match starSpaceThen amountR cs with
      | some r => some r
      | none => amountR s
    else amountR s
  | [] => amountR s

/-- Labels of the amount pattern, in the order of the alternation
`(?:Total Líquido:|Informação do pagamento:)`. -/
def amountLabels : List (List Char) :=
  [("Total Líquido:").toList, ("Informação do pagamento:").toList]

/-- The amount pattern of `transform_messages_of_llm` tried at one
position:
`(?:Total Líquido:|Informação do pagamento:)\s*(?:\n\s*)?R\$ ?(\d{1,3}(?:\.\d{3})*,\d{2})`. -/
def amountMatchAt (s : List Char) : Option (List Char × List Char) :=
  match firstLabel amountLabels s with
  | some t => starSpaceThen amountCore t
  | none => none

/-- `transform_messages_of_llm` (lines 109-129 of `src/script.py`): the
three independent `re.findall` calls over the model reply, returning
`(buyers, banks, amounts)`. -/
def transform_messages_of_llm (response : String) :
    List String × List String × List String :=
  (pyFindall buyerMatchAt response,
   pyFindall bankMatchAt response,
   pyFindall amountMatchAt response)

/-- The sentinel `"Não encontrado"` substituted for missing fields. -/
def sentinel : String := "Não encontrado"

/-- Python `str.strip()`: remove leading and trailing Unicode
whitespace. -/
def pyStrip (s : String) : String :=
  String.mk (((s.toList.dropWhile pySpace).reverse.dropWhile pySpace).reverse)

/-- `collect_informations` (lines 132-160 of `src/script.py`): for
`i` in `range(max(len(buyers), len(banks), len(amounts)))` take
`buyers[i]` (or the sentinel), `banks[i].strip()` (or the sentinel) and
`"R$ " + amounts[i]` (or the bare sentinel). -/
def collect_informations (buyers banks amounts : List String) :
    List String × List String × List String :=
  let total := max (max buyers.length banks.length) amounts.length
  ((List.range total).map
     (fun i => if h : i < buyers.length then buyers[i] else sentinel),
   (List.range total).map
     (fun i => if h : i < banks.length then pyStrip banks[i] else sentinel),
   (List.range total).map
     (fun i => if h : i < amounts.length then "R$ " ++ amounts[i] else sentinel))

/-- The result table of `convert_to_dataframe`: three named columns
COMPRADOR / BANCO / VALOR. -/
structure DataFrame where
  comprador : List String
  banco : List String
  valor : List String
deriving DecidableEq

/-- `convert_to_dataframe` (lines 163-177 of `src/script.py`):
`pd.DataFrame` applied to a dict of three list-valued columns succeeds
exactly when the lists have equal length (otherwise pandas raises
`ValueError`), modelled by `Option`. -/
def convert_to_dataframe (buyer_list bank_list amount_list : List String) :
    Option DataFrame :=
  if buyer_list.length = bank_list.length ∧ bank_list.length = amount_list.length
  then some ⟨buyer_list, bank_list, amount_list⟩
  else none

/-- One fetched mail item; its `html` attribute is the HTML body, the
empty string when the message has no HTML part (so Python's
`if msg.html:` is the test `html ≠ ""`). -/
structure MailMessage where
  html : String
deriving DecidableEq

/-- The body of the fetch loop of `get_messages` (lines 50-57 of
`src/script.py`), with the accumulator `all_informations` made
explicit.  `process` abstracts the per-message I/O
(`BeautifulSoup(...).get_text` followed by `_reading_gmails`); `msgs`
is the server-returned sequence of messages matching the sender filter.
Note the source `return`s inside the loop right after the first append;
falling off the loop returns Python `None`, modelled as `none`. -/
def get_messages_loop (process : String → String) (acc : List String) :
    List MailMessage → Option (List String)
  | [] => none
  | msg :: rest =>
    if msg.html ≠ "" then some (acc ++ [process msg.html])
    else get_messages_loop process acc rest

/-- `get_messages` (lines 34-57 of `src/script.py`), abstracted over the
mailbox I/O as described at `get_messages_loop`. -/
def get_messages (process : String → String) (msgs : List MailMessage) :
    Option (List String) :=
  get_messages_loop process [] msgs

/-- The maximal whitespace-separated words of a string (used to state
what "a capitalized multi-word name" means, independently of the
matcher).  Each recursive step consumes at least one character, so
passing the length as fuel suffices. -/
def wordsOfAux : Nat → List Char → List (List Char)
  | 0, _ => []
  | _ + 1, [] => []
  | fuel + 1, c :: cs =>
    if pySpace c then wordsOfAux fuel cs
    else (c :: cs.takeWhile (fun d => !pySpace d)) ::
      wordsOfAux fuel (cs.dropWhile (fun d => !pySpace d))

/-- The whitespace-separated words of a character list. -/
def wordsOf (s : List Char) : List (List Char) := wordsOfAux s.length s

/-- The lines of a text, splitting at `'\n'` (used to state "comes from
the same line as the label"). -/
def pyLinesAux : Nat → List Char → List (List Char)
  | 0, _ => []
  | fuel + 1, s =>
    let line := s.takeWhile (fun d => d != '\n')
    match s.dropWhile (fun d => d != '\n') with
    | [] => [line]
    | _ :: rest => line :: pyLinesAux fuel rest

/-- The lines of a text. -/
def pyLines (s : List Char) : List (List Char) := pyLinesAux (s.length + 1) s

/-- Whether `needle` occurs contiguously inside `hay`. -/
def isSubList (needle : List Char) : List Char → Bool
  | [] => needle.isPrefixOf []
  | c :: cs => needle.isPrefixOf (c :: cs) || isSubList needle cs

/-- A word starts with a character accepted by `start` (the literal
rendering of "each word starting with an uppercase letter"). -/
def wordStartsOK (start : Char → Bool) (w : List Char) : Bool :=
  !w.isEmpty && start (w.headD ' ')

/-- A word has exactly the shape the buyer pattern's word grammar
produces: a `[A-ZÀ-Ú]` character followed by one or more `[a-zà-ú]`
characters. -/
def wordAllOK (w : List Char) : Bool :=
  !w.isEmpty && isUpperRange (w.headD ' ') && !w.tail.isEmpty &&
    w.tail.all isLowerRange

/-- Tail of a well-formed Brazilian currency value after the leading
digit group: `(\.\d{3})*,\d{2}` and nothing else. -/
def wfTail : List Char → Bool
  | [] => false
  | [_] => false
  | [_, _] => false
  | a :: b :: c :: rest =>
    if a = ',' then isD b && isD c && rest.isEmpty
    else if a = '.' then
      match rest with
      | d :: rest2 => isD b && isD c && isD d && wfTail rest2
      | [] => false
    else false

/-- A well-formed Brazilian currency value `D{1,3}(.DDD)*,DD`, the
literal format named by the specification for the amount field. -/
def wfAmount : List Char → Bool
  | [] => false
  | [_] => false
  | [_, _] => false
  | a :: b :: c :: rest =>
    if isD a then
      if isD b then
        if isD c then wfTail rest else wfTail (c :: rest)
      else wfTail (b :: c :: rest)
    else false

/-! ## General lemmas about the embedding -/

theorem isPrefixOf_append_self : ∀ (l x : List Char), l.isPrefixOf (l ++ x) = true
  | [], _ => by simp [List.isPrefixOf]
  | a :: l, x => by
    simp [List.isPrefixOf, isPrefixOf_append_self l x]

theorem isPrefixOf_cons_ne (a b : Char) (as bs : List Char) (h : (a == b) = false) :
    List.isPrefixOf (a :: as) (b :: bs) = false := by
  simp [List.isPrefixOf, h]

theorem findallAux_mem (m : List Char → Option (List Char × List Char)) :
    ∀ fuel s g, g ∈ findallAux m fuel s → ∃ s2 r, m s2 = some (g, r)
  | 0, _, g, hg => by simp [findallAux] at hg
  | _ + 1, [], g, hg => by simp [findallAux] at hg
  | fuel + 1, c :: cs, g, hg => by
    rw [findallAux] at hg
    rcases hm : m (c :: cs) with _ | ⟨g2, r2⟩ <;> rw [hm] at hg
    · exact findallAux_mem m fuel cs g hg
    · simp only [List.mem_cons] at hg
      rcases hg with rfl | hg
      · exact ⟨c :: cs, r2, hm⟩
      · exact findallAux_mem m fuel r2 g hg

theorem starSpaceThen_some {α : Type} (k : List Char → Option α) :
    ∀ s res, starSpaceThen k s = some res → ∃ s2, k s2 = some res
  | [], _, h => ⟨[], h⟩
  | c :: cs, res, h => by
    rw [starSpaceThen] at h
    by_cases hc : pySpace c
    · rw [if_pos hc] at h
      rcases hr : starSpaceThen k cs with _ | r2 <;> rw [hr] at h
      · exact ⟨c :: cs, h⟩
      · cases h
        exact starSpaceThen_some k cs res hr
    · rw [if_neg hc] at h
      exact ⟨c :: cs, h⟩

theorem starSpaceThen_spaces {α : Type} (k : List Char → Option α) :
    ∀ w s res, (∀ c ∈ w, pySpace c = true) →
      (s = [] ∨ ∃ c cs, s = c :: cs ∧ pySpace c = false) →
      k s = some res → starSpaceThen k (w ++ s) = some res
  | [], s, res, _, hs, hk => by
    rcases hs with rfl | ⟨c, cs, rfl, hc⟩
    · exact hk
    · simpa [starSpaceThen, hc] using hk
  | a :: w, s, res, hw, hs, hk => by
    have ha : pySpace a = true := hw a (List.mem_cons_self _ _)
    have ih := starSpaceThen_spaces k w s res
      (fun c hc => hw c (List.mem_cons_of_mem _ hc)) hs hk
    simp [starSpaceThen, ha, ih]

theorem takeWhile_append_of_all (p : Char → Bool) :
    ∀ (xs ys : List Char), (∀ x ∈ xs, p x = true) →
      (xs ++ ys).takeWhile p = xs ++ ys.takeWhile p
  | [], _, _ => rfl
  | x :: xs, ys, h => by
    simp [List.takeWhile_cons, h x (List.mem_cons_self _ _),
      takeWhile_append_of_all p xs ys (fun a ha => h a (List.mem_cons_of_mem _ ha))]

theorem dropWhile_append_of_all (p : Char → Bool) :
    ∀ (xs ys : List Char), (∀ x ∈ xs, p x = true) →
      (xs ++ ys).dropWhile p = ys.dropWhile p
  | [], _, _ => rfl
  | x :: xs, ys, h => by
    simp [List.dropWhile_cons, h x (List.mem_cons_self _ _),
      dropWhile_append_of_all p xs ys (fun a ha => h a (List.mem_cons_of_mem _ ha))]

theorem dropWhile_length_le (p : Char → Bool) :
    ∀ l : List Char, (l.dropWhile p).length ≤ l.length
  | [] => Nat.le_refl 0
  | c :: cs => by
    by_cases h : p c
    · simp only [List.dropWhile_cons, h, if_true]
      exact Nat.le_succ_of_le (dropWhile_length_le p cs)
    · simp [List.dropWhile_cons, h]

theorem pySpace_mem {c : Char} (h : pySpace c = true) : c ∈ pySpaceChars :=
  List.mem_of_elem_eq_true h

theorem pySpace_not_upper {c : Char} (h : pySpace c = true) : isUpperRange c = false := by
  have hmem := pySpace_mem h
  simp only [pySpaceChars] at hmem
  fin_cases hmem <;> decide

theorem pySpace_not_lower {c : Char} (h : pySpace c = true) : isLowerRange c = false := by
  have hmem := pySpace_mem h
  simp only [pySpaceChars] at hmem
  fin_cases hmem <;> decide

theorem upper_not_space {c : Char} (h : isUpperRange c = true) : pySpace c = false := by
  cases hs : pySpace c
  · rfl
  · rw [pySpace_not_upper hs] at h
    exact absurd h (by simp)

theorem lower_not_space {c : Char} (h : isLowerRange c = true) : pySpace c = false := by
  cases hs : pySpace c
  · rfl
  · rw [pySpace_not_lower hs] at h
    exact absurd h (by simp)

theorem get_messages_loop_spec (process : String → String) (acc : List String) :
    ∀ msgs : List MailMessage,
      ((∀ m ∈ msgs, m.html = "") → get_messages_loop process acc msgs = none) ∧
      (∀ l, get_messages_loop process acc msgs = some l → ∃ m ∈ msgs, m.html ≠ "")
  | [] => by simp [get_messages_loop]
  | msg :: rest => by
    have ih := get_messages_loop_spec process acc rest
    by_cases h : msg.html = ""
    · have hstep : get_messages_loop process acc (msg :: rest) =
          get_messages_loop process acc rest := by
        simp [get_messages_loop, h]
      refine ⟨fun hall => ?_, fun l hl => ?_⟩
      · rw [hstep]
        exact ih.1 (fun m hm => hall m (List.mem_cons_of_mem _ hm))
      · rw [hstep] at hl
        obtain ⟨m, hm, hm2⟩ := ih.2 l hl
        exact ⟨m, List.mem_cons_of_mem _ hm, hm2⟩
    · refine ⟨fun hall => ?_, fun l hl => ?_⟩
      · exact absurd (hall msg (List.mem_cons_self _ _)) h
      · exact ⟨msg, List.mem_cons_self _ _, h⟩

theorem matchWord_sound {s w r : List Char} (h : matchWord s = some (w, r)) :
    ∃ c ls, w = c :: ls ∧ isUpperRange c = true ∧ ls ≠ [] ∧
      (∀ d ∈ ls, isLowerRange d = true) ∧ s = w ++ r := by
  match s with
  | [] => simp [matchWord] at h
  | c :: cs =>
    rw [matchWord] at h
    by_cases hc : isUpperRange c
    · rw [if_pos hc] at h
      by_cases hl : cs.takeWhile isLowerRange = []
      · rw [if_pos hl] at h
        exact absurd h (by simp)
      · rw [if_neg hl] at h
        cases h
        refine ⟨c, cs.takeWhile isLowerRange, rfl, hc, hl,
          fun d hd => List.mem_takeWhile_imp hd, ?_⟩
        simp [List.takeWhile_append_dropWhile]
    · rw [if_neg hc] at h
      exact absurd h (by simp)

theorem wordsOfAux_fuel : ∀ f1 f2 s, s.length ≤ f1 → s.length ≤ f2 →
    wordsOfAux f1 s = wordsOfAux f2 s
  | f1, f2, [], _, _ => by cases f1 <;> cases f2 <;> simp [wordsOfAux]
  | 0, _, c :: cs, h1, _ => by simp at h1
  | _ + 1, 0, c :: cs, _, h2 => by simp at h2
  | f1 + 1, f2 + 1, c :: cs, h1, h2 => by
    simp only [List.length_cons, Nat.add_le_add_iff_right] at h1 h2
    rw [wordsOfAux, wordsOfAux]
    by_cases hc : pySpace c
    · rw [if_pos hc, if_pos hc]
      exact wordsOfAux_fuel f1 f2 cs h1 h2
    · rw [if_neg hc, if_neg hc]
      congr 1
      exact wordsOfAux_fuel f1 f2 _
        (le_trans (dropWhile_length_le _ cs) h1)
        (le_trans (dropWhile_length_le _ cs) h2)

theorem wordsOf_space_prefix : ∀ (sp t : List Char), (∀ c ∈ sp, pySpace c = true) →
    wordsOf (sp ++ t) = wordsOf t
  | [], _, _ => rfl
  | c :: sp, t, h => by
    have hc : pySpace c = true := h c (List.mem_cons_self _ _)
    have ih := wordsOf_space_prefix sp t (fun a ha => h a (List.mem_cons_of_mem _ ha))
    show wordsOfAux (c :: (sp ++ t)).length (c :: (sp ++ t)) = wordsOf t
    rw [List.length_cons, wordsOfAux, if_pos hc]
    exact ih

theorem wordsOf_word : ∀ (w t : List Char), w ≠ [] →
    (∀ c ∈ w, pySpace c = false) →
    (t = [] ∨ ∃ c cs, t = c :: cs ∧ pySpace c = true) →
    wordsOf (w ++ t) = w :: wordsOf t
  | [], _, hw, _, _ => absurd rfl hw
  | c :: w, t, _, hnos, ht => by
    have hc : pySpace c = false := hnos c (List.mem_cons_self _ _)
    have hw2 : ∀ a ∈ w, (fun d => !pySpace d) a = true := by
      intro a ha
      simp [hnos a (List.mem_cons_of_mem _ ha)]
    have htake : (w ++ t).takeWhile (fun d => !pySpace d) = w := by
      rw [takeWhile_append_of_all _ w t hw2]
      rcases ht with rfl | ⟨d, ds, rfl, hd⟩
      · simp
      · simp [List.takeWhile_cons, hd]
    have hdrop : (w ++ t).dropWhile (fun d => !pySpace d) = t := by
      rw [dropWhile_append_of_all _ w t hw2]
      rcases ht with rfl | ⟨d, ds, rfl, hd⟩
      · simp
      · simp [List.dropWhile_cons, hd]
    show wordsOfAux (c :: (w ++ t)).length (c :: (w ++ t)) = (c :: w) :: wordsOf t
    rw [List.length_cons, wordsOfAux, if_neg (by simp [hc]), htake, hdrop]
    congr 1
    exact wordsOfAux_fuel (w ++ t).length t.length t (by simp) (le_refl _)

theorem moreWords_sound : ∀ fuel s ext rest, moreWords fuel s = (ext, rest) →
    ext = [] ∨
    ((∃ c cs, ext = c :: cs ∧ pySpace c = true) ∧
     1 ≤ (wordsOf ext).length ∧ ∀ w ∈ wordsOf ext, wordAllOK w = true)
  | 0, s, ext, rest, h => by
    rw [moreWords] at h
    cases h
    exact Or.inl rfl
  | fuel + 1, s, ext, rest, h => by
    rw [moreWords] at h
    by_cases hsp : s.takeWhile pySpace = []
    · rw [if_pos hsp] at h
      cases h
      exact Or.inl rfl
    · rw [if_neg hsp] at h
      rcases hmw : matchWord (s.dropWhile pySpace) with _ | ⟨w, r⟩ <;> rw [hmw] at h
      · cases h
        exact Or.inl rfl
      · dsimp only at h
        rcases hp : moreWords fuel r with ⟨ext2, rest2⟩
        rw [hp] at h
        dsimp only at h
        cases h
        obtain ⟨c0, ls, rfl, hup, hlsne, hlsl, _⟩ := matchWord_sound hmw
        obtain ⟨c, cs, hts⟩ := List.exists_cons_of_ne_nil hsp
        have hts_space : ∀ a ∈ s.takeWhile pySpace, pySpace a = true :=
          fun a ha => List.mem_takeWhile_imp ha
        have hw_nospace : ∀ a ∈ c0 :: ls, pySpace a = false := by
          intro a ha
          rcases List.mem_cons.mp ha with rfl | ha
          · exact upper_not_space hup
          · exact lower_not_space (hlsl a ha)
        have hext2 : ext2 = [] ∨ ∃ d ds, ext2 = d :: ds ∧ pySpace d = true := by
          rcases moreWords_sound fuel r ext2 rest hp with h1 | ⟨⟨d, ds, hds, hd⟩, _⟩
          · exact Or.inl h1
          · exact Or.inr ⟨d, ds, hds, hd⟩
        have hwords : wordsOf (s.takeWhile pySpace ++ (c0 :: ls) ++ ext2) =
            (c0 :: ls) :: wordsOf ext2 := by
          rw [List.append_assoc, wordsOf_space_prefix _ _ hts_space]
          exact wordsOf_word (c0 :: ls) ext2 (by simp) hw_nospace hext2
        refine Or.inr ⟨⟨c, cs ++ ((c0 :: ls) ++ ext2), by simp [hts], ?_⟩, ?_, ?_⟩
        · exact List.mem_takeWhile_imp (hts ▸ List.mem_cons_self c cs)
        · rw [hwords]
          simp
        · rw [hwords]
          intro w2 hw2
          rcases List.mem_cons.mp hw2 with rfl | hw2
          · simpa [wordAllOK, hup, hlsne, List.all_eq_true] using hlsl
          · rcases moreWords_sound fuel r ext2 rest hp with h1 | ⟨_, _, hall⟩
            · rw [h1] at hw2
              simp [wordsOf, wordsOfAux] at hw2
            · exact hall w2 hw2

theorem buyerGroup_sound {s cap rest : List Char} (h : buyerGroup s = some (cap, rest)) :
    2 ≤ (wordsOf cap).length ∧ ∀ w ∈ wordsOf cap, wordAllOK w = true := by
  rw [buyerGroup] at h
  rcases hmw : matchWord s with _ | ⟨w, r⟩ <;> rw [hmw] at h
  · exact absurd h (by simp)
  · dsimp only at h
    rcases hp : moreWords r.length r with ⟨ext, rest2⟩
    rw [hp] at h
    dsimp only at h
    by_cases hne : ext = []
    · rw [if_pos hne] at h
      exact absurd h (by simp)
    · rw [if_neg hne] at h
      cases h
      obtain ⟨c0, ls, rfl, hup, hlsne, hlsl, _⟩ := matchWord_sound hmw
      rcases moreWords_sound r.length r ext rest hp with h1 | ⟨⟨d, ds, hds, hd⟩, hlen, hall⟩
      · exact absurd h1 hne
      · have hw_nospace : ∀ a ∈ c0 :: ls, pySpace a = false := by
          intro a ha
          rcases List.mem_cons.mp ha with rfl | ha
          · exact upper_not_space hup
          · exact lower_not_space (hlsl a ha)
        have hwords : wordsOf ((c0 :: ls) ++ ext) = (c0 :: ls) :: wordsOf ext :=
          wordsOf_word (c0 :: ls) ext (by simp) hw_nospace (Or.inr ⟨d, ds, hds, hd⟩)
        rw [hwords]
        refine ⟨by simpa using Nat.succ_le_succ hlen, ?_⟩
        intro w2 hw2
        rcases List.mem_cons.mp hw2 with rfl | hw2
        · simpa [wordAllOK, hup, hlsne, List.all_eq_true] using hlsl
        · exact hall w2 hw2

theorem bankCap_sound {s cap r : List Char} (h : bankCap s = some (cap, r)) :
    cap ≠ [] ∧ ∀ c ∈ cap, c ≠ '\n' := by
  match s with
  | [] => simp [bankCap] at h
  | c :: cs =>
    rw [bankCap] at h
    by_cases hc : c = '\n'
    · rw [if_pos hc] at h
      exact absurd h (by simp)
    · rw [if_neg hc] at h
      cases h
      refine ⟨by simp, ?_⟩
      intro d hd
      rcases List.mem_cons.mp hd with rfl | hd
      · exact hc
      · simpa using List.mem_takeWhile_imp hd

theorem isPrefixOf_eq_append : ∀ (l s : List Char), l.isPrefixOf s = true →
    s = l ++ s.drop l.length
  | [], s, _ => by simp
  | a :: l, [], h => by simp [List.isPrefixOf] at h
  | a :: l, b :: s, h => by
    simp only [List.isPrefixOf, Bool.and_eq_true, beq_iff_eq] at h
    obtain ⟨rfl, h2⟩ := h
    simp only [List.length_cons, List.drop_succ_cons]
    exact congrArg (fun x => a :: x) (isPrefixOf_eq_append l s h2)

theorem firstLabel_split : ∀ (ls : List (List Char)) (s t : List Char),
    firstLabel ls s = some t → ∃ l, s = l ++ t
  | [], s, t, h => by simp [firstLabel] at h
  | l :: ls, s, t, h => by
    rw [firstLabel] at h
    by_cases hp : l.isPrefixOf s = true
    · rw [if_pos hp] at h
      cases h
      exact ⟨l, isPrefixOf_eq_append l s hp⟩
    · rw [if_neg hp] at h
      exact firstLabel_split ls s t h

theorem dropWhile_head_false (p : Char → Bool) :
    ∀ (l : List Char) (d : Char) (t : List Char), l.dropWhile p = d :: t → p d = false
  | [], d, t, h => by simp at h
  | c :: cs, d, t, h => by
    by_cases hc : p c = true
    · rw [List.dropWhile_cons, if_pos hc] at h
      exact dropWhile_head_false p cs d t h
    · rw [List.dropWhile_cons, if_neg hc] at h
      cases h
      simpa using hc

theorem starSpaceThen_some_split {α : Type} (k : List Char → Option α) :
    ∀ s res, starSpaceThen k s = some res → ∃ w s2, s = w ++ s2 ∧ k s2 = some res
  | [], _, h => ⟨[], [], rfl, h⟩
  | c :: cs, res, h => by
    rw [starSpaceThen] at h
    by_cases hc : pySpace c
    · rw [if_pos hc] at h
      rcases hr : starSpaceThen k cs with _ | r2 <;> rw [hr] at h
      · exact ⟨[], c :: cs, rfl, h⟩
      · cases h
        obtain ⟨w, s2, heq, hk⟩ := starSpaceThen_some_split k cs res hr
        exact ⟨c :: w, s2, by simp [heq], hk⟩
    · rw [if_neg hc] at h
      exact ⟨[], c :: cs, rfl, h⟩

theorem findallAux_mem_split (m : List Char → Option (List Char × List Char))
    (hrem : ∀ x g r, m x = some (g, r) → ∃ p, x = p ++ r) :
    ∀ fuel s g, g ∈ findallAux m fuel s →
      ∃ u s2 r, s = u ++ s2 ∧ m s2 = some (g, r)
  | 0, _, g, hg => by simp [findallAux] at hg
  | _ + 1, [], g, hg => by simp [findallAux] at hg
  | fuel + 1, c :: cs, g, hg => by
    rw [findallAux] at hg
    rcases hm : m (c :: cs) with _ | ⟨g2, r2⟩ <;> rw [hm] at hg
    · obtain ⟨u, s2, r, heq, hm2⟩ := findallAux_mem_split m hrem fuel cs g hg
      exact ⟨c :: u, s2, r, by simp [heq], hm2⟩
    · simp only [List.mem_cons] at hg
      rcases hg with rfl | hg
      · exact ⟨[], c :: cs, r2, rfl, hm⟩
      · obtain ⟨u, s2, r, heq, hm2⟩ := findallAux_mem_split m hrem fuel r2 g hg
        obtain ⟨p, hp⟩ := hrem _ _ _ hm
        refine ⟨p ++ u, s2, r, ?_, hm2⟩
        rw [hp, heq]
        simp [List.append_assoc]

theorem bankCap_split {s cap r : List Char} (h : bankCap s = some (cap, r)) :
    s = cap ++ r ∧ (r = [] ∨ ∃ t2, r = '\n' :: t2) := by
  match s with
  | [] => simp [bankCap] at h
  | c :: cs =>
    rw [bankCap] at h
    by_cases hc : c = '\n'
    · rw [if_pos hc] at h
      exact absurd h (by simp)
    · rw [if_neg hc] at h
      cases h
      constructor
      · simp [List.takeWhile_append_dropWhile]
      · rcases hr : cs.dropWhile (fun d => d != '\n') with _ | ⟨d, t2⟩
        · exact Or.inl rfl
        · have hd : (d != '\n') = false := dropWhile_head_false _ cs d t2 hr
          have hd2 : d = '\n' := by simpa using hd
          exact Or.inr ⟨t2, by rw [hd2]⟩

theorem bankMatchAt_split {s g r : List Char} (h : bankMatchAt s = some (g, r)) :
    ∃ p, s = p ++ g ++ r ∧ (r = [] ∨ ∃ t2, r = '\n' :: t2) := by
  rw [bankMatchAt] at h
  rcases hfl : firstLabel bankLabels s with _ | t <;> rw [hfl] at h
  · exact absurd h (by simp)
  · obtain ⟨l, rfl⟩ := firstLabel_split _ _ _ hfl
    obtain ⟨w, s3, rfl, hk⟩ := starSpaceThen_some_split _ _ _ h
    obtain ⟨hsplit, hr⟩ := bankCap_split hk
    exact ⟨l ++ w, by rw [hsplit]; simp [List.append_assoc], hr⟩

theorem bankMatchAt_sound {s g r : List Char} (h : bankMatchAt s = some (g, r)) :
    g ≠ [] ∧ ∀ c ∈ g, c ≠ '\n' := by
  rw [bankMatchAt] at h
  rcases hfl : firstLabel bankLabels s with _ | t <;> rw [hfl] at h
  · exact absurd h (by simp)
  · obtain ⟨s3, hk⟩ := starSpaceThen_some _ _ _ h
    exact bankCap_sound hk

theorem unitsThen_complete : ∀ fuel (t R : List Char), wfTail t = true →
    t.length ≤ fuel → unitsThen fuel (t ++ R) = some (t, R)
  | _, [], _, hwf, _ => by simp [wfTail] at hwf
  | _, [a], _, hwf, _ => by simp [wfTail] at hwf
  | _, [a, b], _, hwf, _ => by simp [wfTail] at hwf
  | fuel, a :: b :: c :: rest, R, hwf, hlen => by
    rw [wfTail.eq_def] at hwf
    dsimp only at hwf
    by_cases ha : a = ','
    · rw [if_pos ha] at hwf
      simp only [Bool.and_eq_true, List.isEmpty_iff] at hwf
      obtain ⟨⟨hb, hc⟩, hrest⟩ := hwf
      subst ha hrest
      simp only [List.cons_append, List.nil_append]
      rcases R with _ | ⟨r0, R2⟩
      · cases fuel <;> simp [unitsThen, matchDD, hb, hc]
      · cases fuel with
        | zero => simp [unitsThen, matchDD, hb, hc]
        | succ fuel2 =>
          rw [unitsThen, if_neg (fun hx => absurd hx.1 (by decide))]
          simp [matchDD, hb, hc]
    · rw [if_neg ha] at hwf
      by_cases ha2 : a = '.'
      · rw [if_pos ha2] at hwf
        rcases rest with _ | ⟨d, rest2⟩
        · exact absurd hwf (by simp)
        · simp only [Bool.and_eq_true] at hwf
          obtain ⟨⟨⟨hb, hc⟩, hd⟩, hwf2⟩ := hwf
          subst ha2
          rcases fuel with _ | fuel2
          · simp at hlen
          · simp only [List.cons_append]
            rw [unitsThen, if_pos ⟨rfl, hb, hc, hd⟩,
              unitsThen_complete fuel2 rest2 R hwf2
                (by simp only [List.length_cons] at hlen; omega)]
      · rw [if_neg ha2] at hwf
        exact absurd hwf (by simp)

theorem d13_complete : ∀ (v R : List Char), wfAmount v = true →
    d13 (v ++ R) = some (v, R) := by
  intro v R hv
  rcases v with _ | ⟨a, v1⟩
  · simp [wfAmount] at hv
  rcases v1 with _ | ⟨b, v2⟩
  · simp [wfAmount] at hv
  rcases v2 with _ | ⟨c, rest⟩
  · simp [wfAmount] at hv
  rw [wfAmount] at hv
  by_cases ha : isD a = true
  swap
  · rw [if_neg ha] at hv
    exact absurd hv (by simp)
  rw [if_pos ha] at hv
  simp only [List.cons_append]
  by_cases hb : isD b = true
  · rw [if_pos hb] at hv
    by_cases hc : isD c = true
    · rw [if_pos hc] at hv
      have h3 : takeDExact 3 (a :: b :: c :: (rest ++ R)) = some ([a, b, c], rest ++ R) := by
        simp [takeDExact, ha, hb, hc]
      have hu : unitsThen (rest.length + R.length) (rest ++ R) = some (rest, R) :=
        unitsThen_complete _ rest R hv (Nat.le_add_right _ _)
      have hd3 : dTry 3 (a :: b :: c :: (rest ++ R)) = some (a :: b :: c :: rest, R) := by
        simp [dTry, h3, hu]
      simp [d13, hd3]
    · rw [if_neg hc] at hv
      have h3 : takeDExact 3 (a :: b :: c :: (rest ++ R)) = none := by
        simp [takeDExact, ha, hb, hc]
      have h2 : takeDExact 2 (a :: b :: c :: (rest ++ R)) = some ([a, b], c :: (rest ++ R)) := by
        simp [takeDExact, ha, hb]
      have hu : unitsThen (rest.length + R.length + 1) (c :: (rest ++ R)) = some (c :: rest, R) := by
        have := unitsThen_complete (rest.length + R.length + 1) (c :: rest) R hv
          (by simp only [List.length_cons]; omega)
        simpa [List.cons_append] using this
      have hd3 : dTry 3 (a :: b :: c :: (rest ++ R)) = none := by
        simp [dTry, h3]
      have hd2 : dTry 2 (a :: b :: c :: (rest ++ R)) = some (a :: b :: c :: rest, R) := by
        simp [dTry, h2, hu]
      simp [d13, hd3, hd2]
  · rw [if_neg hb] at hv
    have h3 : takeDExact 3 (a :: b :: c :: (rest ++ R)) = none := by
      simp [takeDExact, ha, hb]
    have h2 : takeDExact 2 (a :: b :: c :: (rest ++ R)) = none := by
      simp [takeDExact, ha, hb]
    have h1 : takeDExact 1 (a :: b :: c :: (rest ++ R)) = some ([a], b :: c :: (rest ++ R)) := by
      simp [takeDExact, ha]
    have hu : unitsThen (rest.length + R.length + 1 + 1) (b :: c :: (rest ++ R)) =
        some (b :: c :: rest, R) := by
      have := unitsThen_complete (rest.length + R.length + 1 + 1) (b :: c :: rest) R hv
        (by simp only [List.length_cons]; omega)
      simpa [List.cons_append] using this
    have hd3 : dTry 3 (a :: b :: c :: (rest ++ R)) = none := by
      simp [dTry, h3]
    have hd2 : dTry 2 (a :: b :: c :: (rest ++ R)) = none := by
      simp [dTry, h2]
    have hd1 : dTry 1 (a :: b :: c :: (rest ++ R)) = some (a :: b :: c :: rest, R) := by
      simp [dTry, h1, hu]
    simp [d13, hd3, hd2, hd1]

theorem amountR_complete {v R : List Char} (hv : wfAmount v = true) :
    amountR ('R' :: '$' :: ' ' :: (v ++ R)) = some (v, R) := by
  show optSpaceThen d13 (' ' :: (v ++ R)) = some (v, R)
  simp [optSpaceThen, d13_complete v R hv]

theorem amountCore_R {v R : List Char} (hv : wfAmount v = true) :
    amountCore ('R' :: '$' :: ' ' :: (v ++ R)) = some (v, R) := by
  rw [amountCore, if_neg (by decide)]
  exact amountR_complete hv

theorem firstLabel_amount_first (x : List Char) :
    firstLabel amountLabels (("Total Líquido:" : String).toList ++ x) = some x := by
  simp [amountLabels, firstLabel, isPrefixOf_append_self, List.drop_left]

theorem firstLabel_amount_second (x : List Char) :
    firstLabel amountLabels (("Informação do pagamento:" : String).toList ++ x) = some x := by
  have h1 : ("Total Líquido:" : String).toList.isPrefixOf
      (("Informação do pagamento:" : String).toList ++ x) = false := by
    show List.isPrefixOf ('T' :: ("otal Líquido:" : String).toList)
      ('I' :: (("nformação do pagamento:" : String).toList ++ x)) = false
    exact isPrefixOf_cons_ne _ _ _ _ (by decide)
  simp [amountLabels, firstLabel, h1, isPrefixOf_append_self, List.drop_left]

theorem pyFindall_head (m : List Char → Option (List Char × List Char)) (s : String)
    (g r : List Char) (hm : m s.toList = some (g, r)) (hne : s.toList ≠ []) :
    (pyFindall m s).head? = some (String.mk g) := by
  rw [pyFindall]
  rcases hs : s.toList with _ | ⟨c, cs⟩
  · exact absurd hs hne
  · rw [hs] at hm
    simp only [List.length_cons]
    rw [findallAux, hm]
    simp

/-! ## Claim theorems -/

/-- C1: for every triple of string lists, `collect_informations` produces
exactly `max(len(buyers), len(banks), len(amounts))` rows (each of the
three returned columns has that length). -/
theorem collect_informations_row_count (bs ks as : List String) :
    (collect_informations bs ks as).1.length =
      max (max bs.length ks.length) as.length ∧
    (collect_informations bs ks as).2.1.length =
      max (max bs.length ks.length) as.length ∧
    (collect_informations bs ks as).2.2.length =
      max (max bs.length ks.length) as.length := by
  simp [collect_informations]

/-- C2: for every row index below the row count, the assembled row's
buyer is `buyers[i]` or the sentinel, its bank is `banks[i]` stripped of
surrounding whitespace or the sentinel, and its amount is
`"R$ " ++ amounts[i]` or the bare sentinel (never prefixed). -/
theorem collect_informations_fields (bs ks as : List String) (i : Nat)
    (h : i < max (max bs.length ks.length) as.length) :
    (collect_informations bs ks as).1[i]? =
      some (if hb : i < bs.length then bs[i] else sentinel) ∧
    (collect_informations bs ks as).2.1[i]? =
      some (if hk : i < ks.length then pyStrip ks[i] else sentinel) ∧
    (collect_informations bs ks as).2.2[i]? =
      some (if ha : i < as.length then "R$ " ++ as[i] else sentinel) := by
  refine ⟨?_, ?_, ?_⟩ <;>
    simp [collect_informations, List.getElem?_map, List.getElem?_range, h]

/-- Witness for C2 at a concrete input. -/
theorem collect_informations_fields_witness :
    (collect_informations ["A"] [] ["1,00", "2,00"]).1[1]? =
      some (if hb : 1 < (["A"] : List String).length then (["A"] : List String)[1] else sentinel) ∧
    (collect_informations ["A"] [] ["1,00", "2,00"]).2.1[1]? =
      some (if hk : 1 < ([] : List String).length then pyStrip ([] : List String)[1] else sentinel) ∧
    (collect_informations ["A"] [] ["1,00", "2,00"]).2.2[1]? =
      some (if ha : 1 < (["1,00", "2,00"] : List String).length
            then "R$ " ++ (["1,00", "2,00"] : List String)[1] else sentinel) :=
  collect_informations_fields ["A"] [] ["1,00", "2,00"] 1 (by decide)

/-- C3: the spec's intended behavior is one processed entry per matching
mail, but the `return` sits inside the fetch loop: on a mailbox with two
HTML-bearing matching messages, `get_messages` returns after processing
only the first. -/
theorem get_messages_stops_after_first_html :
    get_messages (fun s => s) [⟨"<b>um</b>"⟩, ⟨"<b>dois</b>"⟩] = some ["<b>um</b>"] ∧
    (⟨"<b>dois</b>"⟩ : MailMessage).html ≠ "" := by
  decide

/-- C4 counterexample: on the spec's scenario text the buyer pattern's
`\s+` crosses the newline and keeps consuming capitalized words, so the
extracted buyer is `"Maria Silva\nBanco Pagador"`, not `"Maria Silva"`. -/
theorem scenario_buyers_counterexample :
    (transform_messages_of_llm
        "Pagador: Maria Silva\nBanco Pagador: Banco do Brasil\nTotal Líquido: R$ 1.234,56").1 ≠
      ["Maria Silva"] ∧
    transform_messages_of_llm
        "Pagador: Maria Silva\nBanco Pagador: Banco do Brasil\nTotal Líquido: R$ 1.234,56" =
      (["Maria Silva\nBanco Pagador"], ["Banco do Brasil"], ["1.234,56"]) := by
  decide

/-- C4 amended: parsing the scenario text yields
buyers = `["Maria Silva\nBanco Pagador"]`, banks = `["Banco do Brasil"]`,
amounts = `["1.234,56"]`, and assembling them yields exactly one record
`{"Maria Silva\nBanco Pagador", "Banco do Brasil", "R$ 1.234,56"}`. -/
theorem scenario_record_assembly_amended :
    transform_messages_of_llm
        "Pagador: Maria Silva\nBanco Pagador: Banco do Brasil\nTotal Líquido: R$ 1.234,56" =
      (["Maria Silva\nBanco Pagador"], ["Banco do Brasil"], ["1.234,56"]) ∧
    collect_informations ["Maria Silva\nBanco Pagador"] ["Banco do Brasil"] ["1.234,56"] =
      (["Maria Silva\nBanco Pagador"], ["Banco do Brasil"], ["R$ 1.234,56"]) := by
  decide

/-- C6 counterexample: on `"Banco Pagador:\nItaú"` the bank pattern's
`\s*` consumes the newline and captures `"Itaú"` from the line after the
label, so no line of the text contains both the label and the captured
value. -/
theorem bank_same_line_counterexample :
    pyFindall bankMatchAt "Banco Pagador:\nItaú" = ["Itaú"] ∧
    ¬ ∀ b ∈ pyFindall bankMatchAt "Banco Pagador:\nItaú",
        ∃ line ∈ pyLines ("Banco Pagador:\nItaú".toList),
          isSubList ("Banco Pagador:".toList) line = true ∧
          isSubList b.toList line = true := by
  decide

/-- C7 counterexample: the class `[A-ZÀ-Ú]` contains the multiplication
sign `×` (U+00D7), so `"Pagador: ×a ×b"` yields the buyer `"×a ×b"`,
whose words do not start with an uppercase letter. -/
theorem buyer_uppercase_letter_counterexample :
    pyFindall buyerMatchAt "Pagador: ×a ×b" = ["×a ×b"] ∧
    ¬ ∀ b ∈ pyFindall buyerMatchAt "Pagador: ×a ×b",
        2 ≤ (wordsOf b.toList).length ∧
        (wordsOf b.toList).all (wordStartsOK isUpperLetter) = true := by
  decide

/-- C5: whenever one of the amount labels is followed by any whitespace
(possibly containing a newline) and then a currency value of the literal
form `R$ D{1,3}(.DDD)*,DD`, the amount pattern matches and captures
exactly the numeric portion of the value. -/
theorem amount_label_whitespace_value (lab w v rest : String)
    (hlab : lab = "Total Líquido:" ∨ lab = "Informação do pagamento:")
    (hw : ∀ c ∈ w.toList, pySpace c = true)
    (hv : wfAmount v.toList = true) :
    ((transform_messages_of_llm (lab ++ w ++ "R$ " ++ v ++ rest)).2.2).head? =
      some v := by
  have happ : ∀ (a b : String), (a ++ b).toList = a.toList ++ b.toList := fun _ _ => rfl
  have hsplit : (lab ++ w ++ "R$ " ++ v ++ rest).toList =
      lab.toList ++ (w.toList ++ ('R' :: '$' :: ' ' :: (v.toList ++ rest.toList))) := by
    rw [happ, happ, happ, happ]
    have hr : ("R$ " : String).toList = ['R', '$', ' '] := rfl
    rw [hr]
    simp [List.append_assoc]
  have hstar : starSpaceThen amountCore
      (w.toList ++ ('R' :: '$' :: ' ' :: (v.toList ++ rest.toList))) =
      some (v.toList, rest.toList) :=
    starSpaceThen_spaces _ _ _ _ hw (Or.inr ⟨'R', _, rfl, by decide⟩) (amountCore_R hv)
  have hm : amountMatchAt ((lab ++ w ++ "R$ " ++ v ++ rest).toList) =
      some (v.toList, rest.toList) := by
    rw [hsplit, amountMatchAt]
    rcases hlab with rfl | rfl
    · rw [firstLabel_amount_first]
      exact hstar
    · rw [firstLabel_amount_second]
      exact hstar
  have hne : (lab ++ w ++ "R$ " ++ v ++ rest).toList ≠ [] := by
    rw [hsplit]
    rcases hlab with rfl | rfl <;> simp
  have hmk : String.mk v.toList = v := by
    cases v
    rfl
  have := pyFindall_head amountMatchAt (lab ++ w ++ "R$ " ++ v ++ rest) _ _ hm hne
  rw [hmk] at this
  exact this

/-- Witness for C5 at the specification's scenario: label and value on
separate lines still match and the numeric portion is captured. -/
theorem amount_label_whitespace_value_witness :
    ((transform_messages_of_llm
        ("Informação do pagamento:" ++ "\n" ++ "R$ " ++ "999,00" ++ "")).2.2).head? =
      some "999,00" :=
  amount_label_whitespace_value "Informação do pagamento:" "\n" "999,00" ""
    (Or.inr rfl) (by decide) (by decide)

/-- C6 amended: every bank value extracted by the Field Parser is
non-empty, contains no newline, and is the remainder of the line on
which the captured value starts: it occurs in the reply text followed
immediately by a newline or by the end of the text.  (That line need
not be the label's line, as the counterexample shows.) -/
theorem bank_capture_line_remainder (response b : String)
    (hb : b ∈ (transform_messages_of_llm response).2.1) :
    b.toList ≠ [] ∧ (∀ c ∈ b.toList, c ≠ '\n') ∧
    ∃ u tail, response.toList = u ++ b.toList ++ tail ∧
      (tail = [] ∨ ∃ t2, tail = '\n' :: t2) := by
  simp only [transform_messages_of_llm, pyFindall, List.mem_map] at hb
  obtain ⟨g, hg, rfl⟩ := hb
  have hrem : ∀ x g2 r2, bankMatchAt x = some (g2, r2) → ∃ p, x = p ++ r2 := by
    intro x g2 r2 hx
    obtain ⟨p, hp, _⟩ := bankMatchAt_split hx
    exact ⟨p ++ g2, by rw [hp]⟩
  obtain ⟨u1, s2, r, hresp, hm⟩ := findallAux_mem_split bankMatchAt hrem _ _ _ hg
  obtain ⟨hne, hnl⟩ := bankMatchAt_sound hm
  obtain ⟨p, hp, hr⟩ := bankMatchAt_split hm
  have hmk : (String.mk g).toList = g := rfl
  refine ⟨by rw [hmk]; exact hne, by rw [hmk]; exact hnl, u1 ++ p, r, ?_, hr⟩
  rw [hmk, hresp, hp]
  simp [List.append_assoc]

/-- Witness for C6 (amended) at a concrete input: the value `"X"`
occurs right after `"Banco Pagador: "` and runs to the end of the
text. -/
theorem bank_capture_line_remainder_witness :
    ("X" : String).toList ≠ [] ∧ (∀ c ∈ ("X" : String).toList, c ≠ '\n') ∧
    ∃ u tail, ("Banco Pagador: X" : String).toList = u ++ ("X" : String).toList ++ tail ∧
      (tail = [] ∨ ∃ t2, tail = '\n' :: t2) :=
  bank_capture_line_remainder "Banco Pagador: X" "X" (by decide)

/-- C7 amended: every buyer value extracted by the Field Parser splits
into at least two whitespace-separated words, each consisting of a
character of the class `[A-ZÀ-Ú]` (the accented uppercase letters plus
the multiplication sign `×`) followed by one or more characters of the
class `[a-zà-ú]`. -/
theorem buyer_capture_word_shape (response b : String)
    (hb : b ∈ (transform_messages_of_llm response).1) :
    2 ≤ (wordsOf b.toList).length ∧ ∀ w ∈ wordsOf b.toList, wordAllOK w = true := by
  simp only [transform_messages_of_llm, pyFindall, List.mem_map] at hb
  obtain ⟨g, hg, rfl⟩ := hb
  obtain ⟨s2, r, hm⟩ := findallAux_mem _ _ _ _ hg
  rw [buyerMatchAt] at hm
  rcases hfl : firstLabel buyerLabels s2 with _ | t <;> rw [hfl] at hm
  · exact absurd hm (by simp)
  · obtain ⟨s3, hk⟩ := starSpaceThen_some _ _ _ hm
    exact buyerGroup_sound hk

/-- Witness for C7 (amended) at a concrete input. -/
theorem buyer_capture_word_shape_witness :
    2 ≤ (wordsOf ("Ana Maria" : String).toList).length ∧
    ∀ w ∈ wordsOf ("Ana Maria" : String).toList, wordAllOK w = true :=
  buyer_capture_word_shape "Pagador: Ana Maria" "Ana Maria" (by decide)

/-- C8: the Field Parser is pure and deterministic — identical reply
text yields identical triples of sequences. -/
theorem transform_messages_of_llm_deterministic (r₁ r₂ : String) (h : r₁ = r₂) :
    transform_messages_of_llm r₁ = transform_messages_of_llm r₂ := by
  rw [h]

/-- Witness for C8 at a concrete input. -/
theorem transform_messages_of_llm_deterministic_witness :
    transform_messages_of_llm "Pagador: Rui Costa" =
      transform_messages_of_llm "Pagador: Rui Costa" :=
  transform_messages_of_llm_deterministic _ _ rfl

/-- C9: if no fetched matching message has an HTML body, `get_messages`
returns `None` (never the empty list); and whenever it returns a list,
some matching message had an HTML body. -/
theorem get_messages_none_without_html (process : String → String)
    (msgs : List MailMessage) :
    ((∀ m ∈ msgs, m.html = "") → get_messages process msgs = none) ∧
    (∀ l, get_messages process msgs = some l → ∃ m ∈ msgs, m.html ≠ "") :=
  get_messages_loop_spec process [] msgs

/-- Witness for C9 at a concrete input. -/
theorem get_messages_none_without_html_witness :
    get_messages (fun s => s) [⟨""⟩] = none :=
  (get_messages_none_without_html (fun s => s) [⟨""⟩]).1 (by decide)

/-- C10: the three lists returned by `collect_informations` always have
equal length, so `convert_to_dataframe` builds the table without
error. -/
theorem collect_then_convert_succeeds (bs ks as : List String) :
    (collect_informations bs ks as).1.length =
      (collect_informations bs ks as).2.1.length ∧
    (collect_informations bs ks as).2.1.length =
      (collect_informations bs ks as).2.2.length ∧
    (convert_to_dataframe (collect_informations bs ks as).1
        (collect_informations bs ks as).2.1
        (collect_informations bs ks as).2.2).isSome = true := by
  simp [collect_informations, convert_to_dataframe]

end PagbankEtl
